import Mathlib

/-!
Shallow embedding of `tag_decomp.py` (gene-tree tagging and decomposition)
and proofs about the claims of its specification.

Conventions of the embedding:
* leaf labels and species identifiers are lists of characters;
* species sets are `Finset (List Char)`;
* the treeswift tree container is modelled by `GTree` (strictly binary trees,
  the shape every algorithm of the file requires after the resolution steps),
  by `RTree` (rose trees, for `unroot` and the polytomy-handling parts of
  `get_min_root`) and by derived annotated types;
* mutation of per-node attributes (`down`, `d_score`, `s`, `tag`, ...) becomes
  structural recursion computing those attributes.
-/

namespace TagDecomp

abbrev Label := List Char

/-- Embedding of Python `label.split(sep)[0]` for a provided (non-empty)
separator: the prefix of `s` strictly before the first occurrence of `sep`,
or all of `s` when `sep` does not occur. -/
def splitFirst (sep : Label) (s : Label) : Label :=
  match s with
  | [] => []
  | c :: cs => if sep ≠ [] ∧ sep.isPrefixOf (c :: cs) then []
               else c :: splitFirst sep cs

/-- Binary gene trees: the shape of a treeswift tree after
`resolve_polytomies` / `suppress_unifurcations`.  Internal nodes of the
source trees carry no meaningful label. -/
inductive GTree where
  | leaf (label : Label)
  | node (l r : GTree)
deriving DecidableEq, Repr

/-- The species set of a subtree: `node.down` of the down pass of
`get_min_root` (line 48/55 of the source), also `node.s` of `tag`. -/
def sset (sep : Label) : GTree → Finset Label
  | .leaf lb => {splitFirst sep lb}
  | .node l r => sset sep l ∪ sset sep r

/-- The overlap penalty added to a score at a node whose two sides have
species sets `A` and `B` (lines 58-65 and 103-110 of the source):
0 when disjoint; otherwise 1 when `A = B`, 2 when the union equals one
side, 3 otherwise. -/
def penalty (A B : Finset Label) : Nat :=
  if A ∩ B = ∅ then 0
  else if A ∪ B = A ∨ A ∪ B = B then (if A = B then 1 else 2)
  else 3

/-- `node.d_score` of the down pass of `get_min_root` (lines 49, 56-65). -/
def dScore (sep : Label) : GTree → Nat
  | .leaf _ => 0
  | .node l r => dScore sep l + dScore sep r + penalty (sset sep l) (sset sep r)

/-- A tree annotated by `tag`: every node carries its species set `s`, every
internal node additionally its `tag` character (`'S'` or `'D'`). -/
inductive TTree where
  | leaf (label : Label) (s : Finset Label)
  | node (l r : TTree) (s : Finset Label) (tg : Char)
deriving DecidableEq

/-- The `s` attribute stored at the root of an annotated subtree. -/
def TTree.sOf : TTree → Finset Label
  | .leaf _ s => s
  | .node _ _ s _ => s

/-- Embedding of `tag(tree, delimiter)` (lines 119-143): the postorder pass
annotating every node with `s` and every internal node with `tag`, together
with the final value of the mutable counter `tree.n_dup` (incremented once at
every node tagged `'D'`).  The input is binary, so the preliminary
`suppress_unifurcations` / `resolve_polytomies` calls are identities. -/
def tag (sep : Label) : GTree → TTree × Nat
  | .leaf lb => (.leaf lb {splitFirst sep lb}, 0)
  | .node l r =>
      let L := tag sep l
      let R := tag sep r
      if L.1.sOf ∩ R.1.sOf = ∅ then
        (.node L.1 R.1 (L.1.sOf ∪ R.1.sOf) 'S', L.2 + R.2)
      else
        (.node L.1 R.1 (L.1.sOf ∪ R.1.sOf) 'D', L.2 + R.2 + 1)

/-- The postcondition of `tag` claimed by the spec, as a predicate on
annotated trees: leaves carry the singleton of the species extracted from
their label, internal nodes carry the union of their children's sets and the
tag `'S'` exactly when the children's sets are disjoint. -/
def wellTagged (sep : Label) : TTree → Bool
  | .leaf lb s => s = ({splitFirst sep lb} : Finset Label)
  | .node l r s tg =>
      wellTagged sep l && wellTagged sep r && (s = l.sOf ∪ r.sOf) &&
        (if l.sOf ∩ r.sOf = ∅ then tg = 'S' else tg = 'D')

/-- The number of internal nodes tagged `'D'` in an annotated tree. -/
def countD : TTree → Nat
  | .leaf _ _ => 0
  | .node l r _ tg => countD l + countD r + (if tg = 'D' then 1 else 0)

/-! ### `get_min_root` (lines 29-116)

A node of the (binary) input tree is addressed by its path from the root:
`false` descends into `child_nodes()[0]`, `true` into `child_nodes()[1]`. -/

/-- The subtree hanging below the node at a path. -/
def subAt : GTree → List Bool → Option GTree
  | t, [] => some t
  | .leaf _, _ :: _ => none
  | .node l r, b :: p => if b then subAt r p else subAt l p

/-- `compFrom cur out p`: the rest of the tree seen from the node at path
`p` below `cur`, where `out` is the (already rerooted) part of the tree
hanging above `cur`.  This is the subtree that becomes the second root child
when the tree is rerooted on the edge above that node, with the old root
edge contracted. -/
def compFrom : GTree → GTree → List Bool → Option GTree
  | _, out, [] => some out
  | .leaf _, _, _ :: _ => none
  | .node l r, out, b :: p =>
      if b then compFrom r (.node out l) p else compFrom l (.node out r) p

/-- The complement of the node at a non-empty path: everything outside its
subtree, rerooted at the cut edge. -/
def compAt : GTree → List Bool → Option GTree
  | .node l r, b :: p => if b then compFrom r l p else compFrom l r p
  | _, _ => none

/-- `upFrom cur U s p`: the `(up, u_score)` attributes (lines 98-110 of the
source) of the node at path `p` below `cur`, where `cur` itself has
attributes `up = U`, `u_score = s`.  Descending to a child adds the
sibling's `d_score` plus the overlap penalty between the parent's `up` set
and the sibling's `down` set, and unions the sibling's `down` set into
`up`. -/
def upFrom (sep : Label) : GTree → Finset Label → Nat → List Bool →
    Option (Finset Label × Nat)
  | _, U, s, [] => some (U, s)
  | .leaf _, _, _, _ :: _ => none
  | .node l r, U, s, b :: p =>
      if b then
        upFrom sep r (U ∪ sset sep l) (s + dScore sep l + penalty U (sset sep l)) p
      else
        upFrom sep l (U ∪ sset sep r) (s + dScore sep r + penalty U (sset sep r)) p

/-- The `(up, u_score)` attributes of the node at a non-empty path; the two
children of the root are initialized with the sibling's `down` set and
`d_score` (lines 79-85 of the source). -/
def upAt (sep : Label) : GTree → List Bool → Option (Finset Label × Nat)
  | .node l r, b :: p =>
      if b then upFrom sep r (sset sep l) (dScore sep l) p
      else upFrom sep l (sset sep r) (dScore sep r) p
  | _, _ => none

/-- `node.u_score + node.d_score` (line 111 of the source) at the node
addressed by a path. -/
def totalAt (sep : Label) (t : GTree) (q : List Bool) : Option Nat :=
  match upAt sep t q, subAt t q with
  | some us, some u => some (us.2 + dScore sep u)
  | _, _ => none

/-- The paths of all nodes of the tree in the order `traverse_preorder`
yields them (treeswift pops a stack, so the second child's subtree is
visited before the first child's). -/
def prePaths : GTree → List (List Bool)
  | .leaf _ => [[]]
  | .node l r =>
      [] :: ((prePaths r).map (true :: ·) ++ (prePaths l).map (false :: ·))

/-- The nodes of the up pass that are not marked `skip`: every node except
the root and its two children, i.e. paths of length at least 2, in
traversal order. -/
def candPaths (t : GTree) : List (List Bool) :=
  (prePaths t).filter (fun q => 2 ≤ q.length)

/-- One step of the minimum tracking of `get_min_root` (lines 111-115):
strict improvement replaces the candidate, ties keep the earlier node. -/
def minStep (sep : Label) (t : GTree) (acc : List Bool × Nat)
    (q : List Bool) : List Bool × Nat :=
  match totalAt sep t q with
  | some ts => if ts < acc.2 then (q, ts) else acc
  | none => acc

/-- Embedding of `get_min_root(tree, delimiter)` for a binary tree (already
rooted with two root children, so the initial reroot and
`resolve_polytomies` are identities): returns the path of `best_root`
together with the tracked `min_score`.  The initial candidate is the first
root child with score `left.d_score + right.d_score` (lines 87-88). -/
def get_min_root (sep : Label) : GTree → Option (List Bool × Nat)
  | .leaf _ => none
  | .node l r =>
      some ((candPaths (.node l r)).foldl (minStep sep (.node l r))
        ([false], dScore sep l + dScore sep r))

/-- The brute-force check of the spec: reroot on the edge above the node at
path `q` (subtree and contracted complement become the two root children)
and return the rerooted tree. -/
def rerootAt (t : GTree) (q : List Bool) : Option GTree :=
  match subAt t q, compAt t q with
  | some u, some v => some (.node u v)
  | _, _ => none

/-- Invariant of the minimum tracking: the current candidate's score is the
sum of the fresh down scores of its subtree and of its complement. -/
def bruteInv (sep : Label) (t : GTree) (acc : List Bool × Nat) : Prop :=
  ∃ u v, subAt t acc.1 = some u ∧ compAt t acc.1 = some v ∧
    acc.2 = dScore sep u + dScore sep v

/-! ### `decompose` (lines 146-172) -/

/-- Trees produced while decomposing: removing one child of a binary node
leaves a unifurcation. -/
inductive DTree where
  | leaf (label : Label)
  | uni (child : DTree)
  | node (l r : DTree)
deriving DecidableEq, Repr

/-- Embedding of the postorder loop of `decompose` (lines 162-169) on a
tagged tree: returns the list of clades emitted so far (each extracted
after its own subtree was already processed, so with its internal deletions
applied) and the pruned main tree.  At a node tagged `'D'` the child with
strictly fewer species is deleted (on ties `children[1]` is deleted); the
deleted clade is emitted unless `max_only`, and unless `no_subsets` holds
and `right.s ⊆ left.s` — the source tests `children[1]`'s set against
`children[0]`'s regardless of which child is being deleted. -/
def decompAux (maxOnly noSubsets : Bool) : TTree → List DTree × DTree
  | .leaf lb _ => ([], .leaf lb)
  | .node l r _ tg =>
      let L := decompAux maxOnly noSubsets l
      let R := decompAux maxOnly noSubsets r
      if tg = 'D' then
        let del := if l.sOf.card < r.sOf.card then L.2 else R.2
        let kept := if l.sOf.card < r.sOf.card then R.2 else L.2
        let emit := !maxOnly && !(decide (r.sOf ⊆ l.sOf) && noSubsets)
        (L.1 ++ R.1 ++ (if emit then [del] else []), .uni kept)
      else (L.1 ++ R.1, .node L.2 R.2)

/-- `tree.suppress_unifurcations()` applied to the pruned main tree
(line 170): every unifurcation is contracted away. -/
def suppressU : DTree → DTree
  | .leaf lb => .leaf lb
  | .uni c => suppressU c
  | .node l r => .node (suppressU l) (suppressU r)

/-- Embedding of `decompose(tree, max_only, no_subsets)`: the emitted
clades in postorder followed by the residual main tree. -/
def decompose (maxOnly noSubsets : Bool) (t : TTree) : List DTree :=
  (decompAux maxOnly noSubsets t).1 ++
    [suppressU (decompAux maxOnly noSubsets t).2]

/-- The tree `(A,(A,B));`: its root is a duplication node whose removed
child (the left one, species `{A}`) has a species set strictly contained in
the kept child's (`{A,B}`). -/
def exTreeC3 : GTree :=
  .node (.leaf ['A']) (.node (.leaf ['A']) (.leaf ['B']))

/-- The tree `((A,B),(A,C));`: its root is a duplication node whose two
children have species sets of equal cardinality. -/
def exTreeC6 : GTree :=
  .node (.node (.leaf ['A']) (.leaf ['B'])) (.node (.leaf ['A']) (.leaf ['C']))

/-! ### Rose trees, `unroot` (lines 6-26) and the polytomy handling of
`get_min_root` (lines 41-52) -/

/-- A general treeswift node: a label and any number of children.  A node
is a leaf exactly when it has no children. -/
inductive RTree where
  | mk (label : Label) (children : List RTree)

/-- The list of children of a node. -/
def RTree.childrenOf : RTree → List RTree
  | .mk _ cs => cs

/-- `num_children()`. -/
def RTree.numChildren (t : RTree) : Nat := t.childrenOf.length

/-- `is_leaf()`: a node with no children. -/
def RTree.leafQ (t : RTree) : Bool := t.childrenOf.isEmpty

/-- A treeswift tree: an optional root node and the `is_rooted` flag. -/
structure TSTree where
  root : Option RTree
  is_rooted : Bool

/-- Embedding of `unroot(tree)` (lines 17-26).  When the root has exactly
two children `[left, right]`: if `right` is internal it is `contract()`ed
into the root, else if `left` is internal `left` is contracted (treeswift's
`contract` appends the contracted node's children after the remaining
child); in every case except a missing root, `is_rooted` is cleared.  A
rootless tree is returned unchanged (early return at line 18). -/
def unroot (t : TSTree) : TSTree :=
  match t.root with
  | none => t
  | some (.mk lb cs) =>
      match cs with
      | [l, r] =>
          if ¬ r.leafQ then ⟨some (.mk lb (l :: r.childrenOf)), false⟩
          else if ¬ l.leafQ then ⟨some (.mk lb (r :: l.childrenOf)), false⟩
          else ⟨some (.mk lb cs), false⟩
      | _ => ⟨some (.mk lb cs), false⟩

/-- The tree `((a,b),(c,d));`: a rooted tree whose root has two internal
children. -/
def exTreeC4 : RTree :=
  .mk [] [.mk [] [.mk ['a'] [], .mk ['b'] []],
          .mk [] [.mk ['c'] [], .mk ['d'] []]]

/-- One round of pairing: while a node has more than two children, its
first two children are moved under a fresh unlabeled node. -/
def binarize : List RTree → List RTree
  | c1 :: c2 :: c3 :: rest => binarize (.mk [] [c1, c2] :: c3 :: rest)
  | cs => cs
termination_by cs => cs.length

mutual

/-- Modelled from the spec: the tree library's `resolve_polytomies`
(treeswift, outside this repository), per its interface — every node with
more than two children is replaced by an equivalent binary subtree over the
same children; nodes with two or fewer children, unifurcations included,
are left as they are. -/
def resolve_polytomies : RTree → RTree
  | .mk lb cs => .mk lb (binarize (resolveList cs))

/-- `resolve_polytomies` mapped over a list of subtrees. -/
def resolveList : List RTree → List RTree
  | [] => []
  | c :: cs => resolve_polytomies c :: resolveList cs

end

mutual

/-- Some node of the tree has children, but not exactly two: the condition
on which the down pass of `get_min_root` raises (line 51). -/
def hasBadNode : RTree → Bool
  | .mk _ cs => (decide (cs.length ≠ 0) && decide (cs.length ≠ 2)) || anyBad cs

/-- `hasBadNode` over a list of subtrees. -/
def anyBad : List RTree → Bool
  | [] => false
  | c :: cs => hasBadNode c || anyBad cs

end

mutual

/-- Some node of the tree has exactly one child. -/
def hasUnifurcation : RTree → Bool
  | .mk _ cs => decide (cs.length = 1) || anyUni cs

/-- `hasUnifurcation` over a list of subtrees. -/
def anyUni : List RTree → Bool
  | [] => false
  | c :: cs => hasUnifurcation c || anyUni cs

end

/-- The down pass of `get_min_root` (lines 46-65) as it runs on a general
tree: a childless node is a leaf (line 47); any other node requires exactly
two children, otherwise the pass raises `Exception("Vertex has more than 2
children")` (lines 51-52). -/
def downPassR (sep : Label) : RTree → Except String (Finset Label × Nat)
  | .mk lb [] => .ok ({splitFirst sep lb}, 0)
  | .mk _ [l, r] =>
      match downPassR sep l with
      | .error e => .error e
      | .ok dl =>
          match downPassR sep r with
          | .error e => .error e
          | .ok dr => .ok (dl.1 ∪ dr.1, dl.2 + dr.2 + penalty dl.1 dr.1)
  | .mk _ _ => .error "Vertex has more than 2 children"

/-- `true` exactly on `Except.error`. -/
def isErr {α : Type} : Except String α → Bool
  | .error _ => true
  | .ok _ => false

/-- The preprocessing plus down pass of `get_min_root` (lines 41-65) for a
tree whose root already has two children, so the initial
`tree.reroot(tree.root)` (line 42) is skipped: `resolve_polytomies`
(line 43) followed by the postorder scoring pass. -/
def get_min_root_down (sep : Label) (t : RTree) :
    Except String (Finset Label × Nat) :=
  downPassR sep (resolve_polytomies t)

/-- The tree `((A,B,C),D);`: a binary root whose first child is an
unresolved polytomy with three children. -/
def exTreeC10 : RTree :=
  .mk [] [.mk [] [.mk ['A'] [], .mk ['B'] [], .mk ['C'] []], .mk ['D'] []]

/-! ### `sample` (lines 201-237) -/

/-- The state of the Python `random` module, modelled at the interface the
sampler uses: a deterministic stream of child-index choices (`false` picks
`children[0]`, `true` picks `children[1]`) and the position of the next
draw. -/
structure RState where
  stream : Nat → Bool
  idx : Nat

/-- Modelled from the spec: the choice stream determined by the external
generator's fixed seed (the exact values are irrelevant to every property
proved about `sample`). -/
def seedZeroStream : Nat → Bool := fun n =>
  Nat.testBit (2654435761 * (n + 1)) (n % 32)

/-- The generator state right after `random.seed(0)` (line 217). -/
def seedZero : RState := ⟨seedZeroStream, 0⟩

/-- One `random.choice` between the two children of a node. -/
def draw (g : RState) : Bool × RState :=
  (g.stream g.idx, ⟨g.stream, g.idx + 1⟩)

/-- A tagged tree during one sampling iteration: at every node tagged `'D'`
one child has been removed (`remove_child`) and is remembered in the node's
`delete` attribute.  `uni kept removed s` is a duplication node that keeps
`kept` as its only child and stores the pruned `removed` subtree in
`delete`. -/
inductive STree where
  | leaf (label : Label) (s : Finset Label)
  | uni (kept removed : STree) (s : Finset Label)
  | node (l r : STree) (s : Finset Label) (tg : Char)
deriving DecidableEq

/-- The postorder deletion loop of one sampling iteration (lines 228-232):
children are pruned first; each node tagged `'D'` then removes one of its
two (already pruned) children, chosen by the next random draw. -/
def pruneAux : TTree → RState → STree × RState
  | .leaf lb s, g => (.leaf lb s, g)
  | .node l r s tg, g =>
      let L := pruneAux l g
      let R := pruneAux r L.2
      if tg = 'D' then
        let d := draw R.2
        if d.1 then (.uni L.1 R.1 s, d.2) else (.uni R.1 L.1 s, d.2)
      else (.node L.1 R.1 s tg, R.2)

/-- The preorder restoration loop (lines 234-236): every node tagged `'D'`
re-attaches its `delete` child with `add_child`, which appends it after the
kept child; deletions nested inside re-attached subtrees are restored as
the lazy traversal reaches them. -/
def restoreS : STree → TTree
  | .leaf lb s => .leaf lb s
  | .uni k rm s => .node (restoreS k) (restoreS rm) s 'D'
  | .node l r s tg => .node (restoreS l) (restoreS r) s tg

/-- The sampling-method selector (lines 220-225). -/
inductive SampMethod where
  | linear
  | exp
  | custom (f : Nat → Nat)

/-- The number of iterations `n_sample` (lines 220-225). -/
def nSamples (m : SampMethod) (nDup : Nat) : Nat :=
  match m with
  | .linear => nDup
  | .exp => 2 ^ nDup
  | .custom f => f nDup

/-- The sampling loop (lines 227-236): prune, record the pruned tree (the
serialize-and-re-parse at line 233 is modelled as a structural copy),
restore, repeat; the generator state advances across iterations. -/
def sampleIter : Nat → TTree → RState → List STree × TTree × RState
  | 0, t, g => ([], t, g)
  | n + 1, t, g =>
      let P := pruneAux t g
      let rest := sampleIter n (restoreS P.1) P.2
      (P.1 :: rest.1, rest.2)

/-- Embedding of `sample(tree, sampling_method)` on a tagged tree paired
with its `n_dup` counter: line 217 begins by re-seeding the generator
(`random.seed(0)`), discarding whatever state `g` the generator was in. -/
def sample (m : SampMethod) (tn : TTree × Nat) (g : RState) :
    List STree × TTree × RState :=
  sampleIter (nSamples m tn.2) tn.1 seedZero

/-- The labels of the leaves actually present in a pruned tree (subtrees
stored in `delete` attributes are detached and not part of it). -/
def leavesS : STree → List Label
  | .leaf lb _ => [lb]
  | .uni k _ _ => leavesS k
  | .node l r _ _ => leavesS l ++ leavesS r

/-- The extracted species of the leaves of a pruned tree. -/
def speciesListS (sep : Label) (t : STree) : List Label :=
  (leavesS t).map (splitFirst sep)

/-- The leaf labels of a tagged tree. -/
def leavesT : TTree → List Label
  | .leaf lb _ => [lb]
  | .node l r _ _ => leavesT l ++ leavesT r

/-- Structural equality of tagged trees up to swapping the two children of
a node: two trees related by it have the same node set (labels and
annotations included), the same leaf set and the same parent-child
edges. -/
def eqUpToSwap : TTree → TTree → Bool
  | .leaf a sa, .leaf b sb => decide (a = b) && decide (sa = sb)
  | .node l r s tg, .node l2 r2 s2 tg2 =>
      decide (s = s2) && decide (tg = tg2) &&
        ((eqUpToSwap l l2 && eqUpToSwap r r2) ||
         (eqUpToSwap l r2 && eqUpToSwap r l2))
  | _, _ => false

/-- The tree `(A,A);`: one duplication node, `n_dup = 1`. -/
def exTreeC5 : GTree := .node (.leaf ['A']) (.leaf ['A'])

/-! ### `trivial` (lines 240-256) -/

/-- The counting loop of `trivial`: scan the characters, incrementing on
`'('`, returning `False` as soon as the count exceeds 1. -/
def trivialGo (count : Nat) : List Char → Bool
  | [] => true
  | c :: cs =>
      let k := if c = '(' then count + 1 else count
      if 1 < k then false else trivialGo k cs

/-- Embedding of `trivial(newick_str)` (lines 240-256). -/
def trivial (s : List Char) : Bool := trivialGo 0 s

/-- The bracket serialization of a binary tree, as the tree library writes
it: leaves by label, internal nodes as `(left,right)`, a trailing
semicolon. -/
def newickG : GTree → List Char
  | .leaf lb => lb
  | .node l r => '(' :: (newickG l ++ [','] ++ newickG r ++ [')'])

/-- A serialized tree line. -/
def newickStr (t : GTree) : List Char := newickG t ++ [';']

/-- The number of leaves of a binary tree. -/
def countLeaves : GTree → Nat
  | .leaf _ => 1
  | .node l r => countLeaves l + countLeaves r

/-- The tree `((A,B),C);`: three leaves, two opening parentheses. -/
def exTreeC8 : GTree := .node (.node (.leaf ['A']) (.leaf ['B'])) (.leaf ['C'])

/-! ## Theorems -/

lemma wellTagged_tag (sep : Label) (t : GTree) :
    wellTagged sep (tag sep t).1 = true := by
  induction t with
  | leaf lb => simp [tag, wellTagged]
  | node l r ihl ihr =>
      simp only [tag]
      by_cases h : (tag sep l).1.sOf ∩ (tag sep r).1.sOf = ∅ <;>
        simp [h, wellTagged, ihl, ihr]

lemma tag_n_dup_eq_countD (sep : Label) (t : GTree) :
    (tag sep t).2 = countD (tag sep t).1 := by
  induction t with
  | leaf lb => simp [tag, countD]
  | node l r ihl ihr =>
      simp only [tag]
      by_cases h : (tag sep l).1.sOf ∩ (tag sep r).1.sOf = ∅ <;>
        simp [h, countD, ihl, ihr]

/-- C2: after `tag(tree, delimiter)` returns (for a provided, non-empty
delimiter), every leaf's species set is the singleton of the part of its
label before the first delimiter occurrence, every internal node's set is
the union of its children's sets with tag `'S'` exactly when they are
disjoint, and `tree.n_dup` equals the number of internal nodes tagged
`'D'`. -/
theorem tag_wellTagged_and_n_dup (sep : Label) (t : GTree) (hsep : sep ≠ []) :
    wellTagged sep (tag sep t).1 = true ∧
      (tag sep t).2 = countD (tag sep t).1 :=
  ⟨wellTagged_tag sep t, tag_n_dup_eq_countD sep t⟩

/-- Witness for C2 at a concrete delimiter and tree. -/
theorem tag_wellTagged_and_n_dup_witness :
    (wellTagged ['_'] (tag ['_'] (.node (.leaf ['A', '_', '1'])
        (.leaf ['A', '_', '2']))).1 = true ∧
      (tag ['_'] (.node (.leaf ['A', '_', '1']) (.leaf ['A', '_', '2']))).2 =
        countD (tag ['_'] (.node (.leaf ['A', '_', '1'])
          (.leaf ['A', '_', '2']))).1) :=
  tag_wellTagged_and_n_dup ['_'] _ (by decide)


lemma upFrom_compFrom (sep : Label) : ∀ (p : List Bool) (cur out : GTree),
    upFrom sep cur (sset sep out) (dScore sep out) p =
      (compFrom cur out p).map (fun c => (sset sep c, dScore sep c)) := by
  intro p
  induction p with
  | nil => intro cur out; simp [upFrom, compFrom]
  | cons b p ih =>
      intro cur out
      cases cur with
      | leaf lb => simp [upFrom, compFrom]
      | node a c =>
          cases b with
          | false => simpa only [upFrom, compFrom, sset, dScore, if_neg,
              Bool.false_eq_true, not_false_iff] using ih a (.node out c)
          | true => simpa only [upFrom, compFrom, sset, dScore, if_pos]
              using ih c (.node out a)

lemma upAt_compAt (sep : Label) (t : GTree) (q : List Bool) :
    upAt sep t q = (compAt t q).map (fun c => (sset sep c, dScore sep c)) := by
  cases t with
  | leaf lb => cases q <;> simp [upAt, compAt]
  | node l r =>
      cases q with
      | nil => simp [upAt, compAt]
      | cons b p =>
          cases b <;>
            simp only [upAt, compAt, if_pos, if_neg, Bool.false_eq_true,
              not_false_iff, upFrom_compFrom]

lemma totalAt_spec (sep : Label) (t : GTree) (q : List Bool) (m : Nat)
    (h : totalAt sep t q = some m) :
    ∃ u v, subAt t q = some u ∧ compAt t q = some v ∧
      m = dScore sep u + dScore sep v := by
  unfold totalAt at h
  rcases hu : upAt sep t q with _ | us
  · rw [hu] at h; cases h
  · rcases hs : subAt t q with _ | u
    · rw [hu, hs] at h; cases h
    · rw [hu, hs] at h
      have hc := upAt_compAt sep t q
      rw [hu] at hc
      rcases hv : compAt t q with _ | v
      · rw [hv] at hc; cases hc
      · rw [hv] at hc
        have h2 : us = (sset sep v, dScore sep v) := Option.some.inj hc
        have h3 : us.2 + dScore sep u = m := Option.some.inj h
        refine ⟨u, v, rfl, rfl, ?_⟩
        rw [h2] at h3
        simp only at h3
        omega

lemma foldl_minStep_inv (sep : Label) (t : GTree) :
    ∀ (L : List (List Bool)) (acc : List Bool × Nat),
      bruteInv sep t acc → bruteInv sep t (L.foldl (minStep sep t) acc) := by
  intro L
  induction L with
  | nil => intro acc h; exact h
  | cons q L ih =>
      intro acc h
      apply ih
      unfold minStep
      rcases ht : totalAt sep t q with _ | ts
      · exact h
      · by_cases hlt : ts < acc.2
        · simp only [if_pos hlt]
          obtain ⟨u, v, hu, hv, he⟩ := totalAt_spec sep t q ts ht
          exact ⟨u, v, hu, hv, he⟩
        · simp only [if_neg hlt]; exact h

/-- C1: the `min_score` that `get_min_root` tracks for the returned
`best_root` equals the score obtained by rerooting the tree on that edge and
summing the fresh down scores of the new root's two children. -/
theorem get_min_root_min_score_eq_brute (sep : Label) (l r : GTree)
    (b : List Bool) (m : Nat)
    (h : get_min_root sep (.node l r) = some (b, m)) :
    ∃ u v, rerootAt (.node l r) b = some (.node u v) ∧
      m = dScore sep u + dScore sep v := by
  unfold get_min_root at h
  have hinit : bruteInv sep (.node l r)
      ([false], dScore sep l + dScore sep r) := by
    refine ⟨l, r, ?_, ?_, rfl⟩
    · simp [subAt]
    · simp [compAt, compFrom]
  have hinv := foldl_minStep_inv sep (.node l r)
    (candPaths (.node l r)) _ hinit
  rw [Option.some_inj] at h
  rw [h] at hinv
  obtain ⟨u, v, hu, hv, he⟩ := hinv
  refine ⟨u, v, ?_, he⟩
  unfold rerootAt
  rw [hu, hv]

/-- Witness for C1 at a concrete tree. -/
theorem get_min_root_min_score_eq_brute_witness :
    get_min_root ['|'] (.node (.leaf ['A']) (.leaf ['B'])) =
        some ([false], 0) ∧
      (∃ u v, rerootAt (.node (.leaf ['A']) (.leaf ['B'])) [false] =
          some (.node u v) ∧ 0 = dScore ['|'] u + dScore ['|'] v) :=
  ⟨by decide, get_min_root_min_score_eq_brute ['|'] _ _ _ _ (by decide)⟩

/-- C3 (code bug): on the tagged tree `(A,(A,B));` with `no_subsets = True`
and `max_only = False`, the root duplication node removes its left child
(species `{A}`, strictly fewer species than `{A,B}`), whose species set IS
a subset of the kept child's set, yet the clade is emitted: the source
tests `right.s.issubset(left.s)` regardless of which child is removed,
contradicting its own docstring and the spec. -/
theorem decompose_no_subsets_emits_subset_clade :
    (decompAux false true (tag ['|'] exTreeC3).1).1 = [DTree.leaf ['A']] ∧
      ({['A']} : Finset Label) ⊆ {['A'], ['B']} := by decide

/-- C6 counterexample: on `((A,B),(A,C));` the root duplication node has
children of equal species cardinality, and decompose removes and emits the
SECOND child `(A,C)` while keeping the first, refuting the claim that the
first child in traversal order is removed. -/
theorem decompose_tie_removed_is_second_child :
    (decompAux false false (tag ['|'] exTreeC6).1).1 =
        [DTree.node (.leaf ['A']) (.leaf ['C'])] ∧
      (decompAux false false (tag ['|'] exTreeC6).1).2 =
        DTree.uni (.node (.leaf ['A']) (.leaf ['B'])) := by decide

/-- C6 amended: at every duplication node processed by `decompose` whose two
children have species sets of equal cardinality, the child chosen as the
clade to remove is the second child (`children[1]`), the first being
kept. -/
theorem decompose_tie_removes_second (mo ns : Bool) (l r : TTree)
    (s : Finset Label) (h : l.sOf.card = r.sOf.card) :
    (decompAux mo ns (.node l r s 'D')).2 = .uni (decompAux mo ns l).2 := by
  have hnot : ¬ l.sOf.card < r.sOf.card := by omega
  simp [decompAux, hnot]

/-- Witness for the amended C6 at a concrete duplication node. -/
theorem decompose_tie_removes_second_witness :
    (TTree.leaf ['A', '1'] {['A']}).sOf.card =
        (TTree.leaf ['A', '2'] {['A']}).sOf.card ∧
      (decompAux false false (.node (.leaf ['A', '1'] {['A']})
          (.leaf ['A', '2'] {['A']}) {['A']} 'D')).2 =
        .uni (decompAux false false (.leaf ['A', '1'] {['A']})).2 :=
  ⟨by decide, decompose_tie_removes_second false false _ _ _ (by decide)⟩

/-- C4 counterexample: on `((a,b),(c,d));`, whose root has exactly two
children and both are internal, `unroot` does change the structure: the
right child is contracted and the root ends up with three children. -/
theorem unroot_both_internal_changes_structure :
    ((unroot ⟨some exTreeC4, true⟩).root.map RTree.numChildren) = some 3 ∧
      exTreeC4.numChildren = 2 := by
  constructor <;> rfl

/-- C4 amended: when the root has exactly two children and both are
internal, `unroot` contracts the second (right) child into the root — the
right child disappears and its children are promoted to root children —
and clears the rooted flag. -/
theorem unroot_both_internal (lb llb rlb : Label) (lcs rcs : List RTree)
    (b : Bool) (hl : lcs ≠ []) (hr : rcs ≠ []) :
    unroot ⟨some (.mk lb [.mk llb lcs, .mk rlb rcs]), b⟩ =
      ⟨some (.mk lb (.mk llb lcs :: rcs)), false⟩ := by
  obtain ⟨c, cs, rfl⟩ := List.exists_cons_of_ne_nil hr
  simp [unroot, RTree.leafQ, RTree.childrenOf]

/-- Witness for the amended C4 on `((a,b),(c,d));`. -/
theorem unroot_both_internal_witness :
    (([RTree.mk ['a'] [], .mk ['b'] []] : List RTree) ≠ []) ∧
      unroot ⟨some exTreeC4, true⟩ =
        ⟨some (.mk [] [.mk [] [.mk ['a'] [], .mk ['b'] []],
          .mk ['c'] [], .mk ['d'] []]), false⟩ :=
  ⟨List.cons_ne_nil _ _,
    unroot_both_internal [] [] [] _ _ true (List.cons_ne_nil _ _)
      (List.cons_ne_nil _ _)⟩

theorem isErr_downPassR (sep : Label) : ∀ t : RTree,
    isErr (downPassR sep t) = hasBadNode t
  | .mk lb [] => by simp [downPassR, hasBadNode, anyBad, isErr]
  | .mk lb [c] => by simp [downPassR, hasBadNode, anyBad, isErr]
  | .mk lb [l, r] => by
      have ih1 := isErr_downPassR sep l
      have ih2 := isErr_downPassR sep r
      simp only [downPassR, hasBadNode, anyBad, List.length_cons,
        List.length_nil]
      cases hl : downPassR sep l with
      | error e =>
          rw [hl] at ih1
          simp only [isErr] at ih1
          simp [isErr, ← ih1]
      | ok dl =>
          rw [hl] at ih1
          simp only [isErr] at ih1
          cases hr : downPassR sep r with
          | error e =>
              rw [hr] at ih2
              simp only [isErr] at ih2
              simp [isErr, ← ih1, ← ih2]
          | ok dr =>
              rw [hr] at ih2
              simp only [isErr] at ih2
              simp [isErr, ← ih1, ← ih2]
  | .mk lb (c1 :: c2 :: c3 :: rest) => by
      simp [downPassR, hasBadNode, isErr]

theorem anyBad_binarize : ∀ cs : List RTree, anyBad (binarize cs) = anyBad cs
  | [] => by simp [binarize]
  | [c] => by simp [binarize]
  | [c1, c2] => by simp [binarize]
  | c1 :: c2 :: c3 :: rest => by
      have ih := anyBad_binarize (.mk [] [c1, c2] :: c3 :: rest)
      simp only [binarize]
      rw [ih]
      simp [anyBad, hasBadNode, Bool.or_assoc]
termination_by cs => cs.length

theorem length_resolveList : ∀ cs : List RTree,
    (resolveList cs).length = cs.length
  | [] => by simp [resolveList]
  | c :: cs => by simp [resolveList, length_resolveList cs]

theorem length_binarize : ∀ cs : List RTree,
    (binarize cs).length = min cs.length 2
  | [] => by simp [binarize]
  | [c] => by simp [binarize]
  | [c1, c2] => by simp [binarize]
  | c1 :: c2 :: c3 :: rest => by
      have ih := length_binarize (.mk [] [c1, c2] :: c3 :: rest)
      simp only [binarize]
      rw [ih]
      simp only [List.length_cons]
      omega
termination_by cs => cs.length

mutual

theorem hasBad_resolve : ∀ t : RTree,
    hasBadNode (resolve_polytomies t) = hasUnifurcation t
  | .mk lb cs => by
      simp only [resolve_polytomies, hasBadNode, hasUnifurcation]
      rw [anyBad_binarize, anyBad_resolveList cs]
      congr 1
      have hlen : (binarize (resolveList cs)).length = min cs.length 2 := by
        rw [length_binarize, length_resolveList]
      rw [hlen]
      rcases cs with _ | ⟨a, _ | ⟨b, cs⟩⟩
      · simp
      · simp
      · have hmin : min (cs.length + 2) 2 = 2 := by omega
        have hne : cs.length + 2 ≠ 1 := by omega
        simp [hmin, hne, List.length_cons]

theorem anyBad_resolveList : ∀ cs : List RTree,
    anyBad (resolveList cs) = anyUni cs
  | [] => by simp [resolveList, anyBad, anyUni]
  | c :: cs => by
      simp only [resolveList, anyBad, anyUni]
      rw [hasBad_resolve c, anyBad_resolveList cs]

end

/-- C10 amended: the down pass of `get_min_root` (run after the internal
`resolve_polytomies` call) raises exactly when an internal node it visits
has other than two children; since polytomies are resolved internally,
this happens exactly when the input tree contains a unifurcation — an
input polytomy alone never causes a raise. -/
theorem get_min_root_down_raises_iff (sep lb : Label) (l r : RTree) :
    isErr (get_min_root_down sep (.mk lb [l, r])) =
        hasBadNode (resolve_polytomies (.mk lb [l, r])) ∧
      hasBadNode (resolve_polytomies (.mk lb [l, r])) =
        hasUnifurcation (.mk lb [l, r]) :=
  ⟨isErr_downPassR sep _, hasBad_resolve _⟩

/-- C10 counterexample: `((A,B,C),D);` contains an unresolved polytomy
(`hasBadNode` holds of the input), yet `get_min_root`'s down pass succeeds,
because `get_min_root` resolves polytomies itself before scoring. -/
theorem get_min_root_polytomy_no_raise :
    hasBadNode exTreeC10 = true ∧
      isErr (get_min_root_down ['|'] exTreeC10) = false := by
  constructor
  · simp [exTreeC10, hasBadNode, anyBad]
  · simp [exTreeC10, get_min_root_down, resolve_polytomies, resolveList,
      binarize, downPassR, isErr, penalty]

/-- C5 counterexample (negation of the claim on a concrete tree):
`sample` re-seeds the pseudo-random generator on entry, so its output for
the tagged tree `(A,A);` is one constant function of the incoming generator
state — the samples of the second tree of a batch cannot differ from the
samples of that tree taken alone. -/
theorem sample_output_ignores_prior_draws :
    (fun g : RState => (sample .linear (tag ['|'] exTreeC5) g).1) =
      (fun _ : RState => (sample .linear (tag ['|'] exTreeC5) seedZero).1) :=
  rfl

/-- C5 amended: the generator's seed is reset to its fixed value once per
`sample` call — once per tree, not once per batch run — so the samples
produced for any tree are independent of how many draws earlier trees of a
batch consumed: each tree of a batch receives exactly the samples it
receives when sampled alone. -/
theorem sample_reseeds_every_call (m : SampMethod) (tn : TTree × Nat)
    (g1 g2 : RState) : (sample m tn g1).1 = (sample m tn g2).1 :=
  rfl

/-- C8 counterexample: the serialized rooted tree `((A,B),C);` has exactly
3 leaves, yet `trivial` returns False on it (the string contains two
opening parentheses). -/
theorem trivial_false_on_three_leaf_string :
    countLeaves exTreeC8 = 3 ∧ trivial (newickStr exTreeC8) = false := by
  decide

lemma trivialGo_spec : ∀ (s : List Char) (k : Nat), k ≤ 1 →
    (trivialGo k s = true ↔ k + s.count '(' ≤ 1) := by
  intro s
  induction s with
  | nil => intro k hk; simpa [trivialGo] using hk
  | cons c cs ih =>
      intro k hk
      by_cases hc : c = '('
      · subst hc
        have hunf : trivialGo k ('(' :: cs) =
            (if 1 < k + 1 then false else trivialGo (k + 1) cs) := by
          simp [trivialGo]
        have hcnt : (('(' : Char) :: cs).count '(' = cs.count '(' + 1 := by
          simp
        rw [hunf, hcnt]
        by_cases h1 : 1 < k + 1
        · rw [if_pos h1]
          simp only [Bool.false_eq_true, false_iff]
          omega
        · have hk0 : k = 0 := by omega
          subst hk0
          rw [if_neg h1, ih 1 (by omega)]
          omega
      · have hunf : trivialGo k (c :: cs) =
            (if 1 < k then false else trivialGo k cs) := by
          simp [trivialGo, hc]
        have hcnt : (c :: cs).count '(' = cs.count '(' := by
          rw [List.count_cons]
          simp [hc]
        rw [hunf, hcnt]
        have h1 : ¬ (1 < k) := by omega
        rw [if_neg h1, ih k hk]

/-- C8 amended: `trivial` returns True iff the serialized string contains
at most one opening parenthesis; a rooted binary serialization of a 3-leaf
tree contains two, so this does not coincide with the tree having at most
3 leaves. -/
theorem trivial_iff_at_most_one_paren (s : List Char) :
    trivial s = true ↔ s.count '(' ≤ 1 := by
  have h := trivialGo_spec s 0 (by omega)
  simpa [trivial] using h

lemma wellTagged_node (sep : Label) (l r : TTree) (s : Finset Label)
    (tg : Char) :
    wellTagged sep (.node l r s tg) = true ↔
      (wellTagged sep l = true ∧ wellTagged sep r = true ∧
        s = l.sOf ∪ r.sOf ∧
        (if l.sOf ∩ r.sOf = ∅ then tg = 'S' else tg = 'D')) := by
  by_cases h : l.sOf ∩ r.sOf = ∅ <;> simp [wellTagged, h, and_assoc]

lemma pruneAux_species (sep : Label) : ∀ (t : TTree) (g : RState),
    wellTagged sep t = true →
    (speciesListS sep (pruneAux t g).1).Nodup ∧
      ∀ x ∈ speciesListS sep (pruneAux t g).1, x ∈ t.sOf := by
  intro t
  induction t with
  | leaf lb s =>
      intro g hw
      simp only [wellTagged, decide_eq_true_eq] at hw
      simp [pruneAux, speciesListS, leavesS, hw, TTree.sOf]
  | node l r s tg ihl ihr =>
      intro g hw
      rw [wellTagged_node] at hw
      obtain ⟨hwl, hwr, hs, hif⟩ := hw
      by_cases htg : tg = 'D'
      · subst htg
        simp only [pruneAux, if_pos rfl]
        cases hb : (draw (pruneAux r (pruneAux l g).2).2).1 with
        | true =>
            simp only [hb, if_pos rfl, speciesListS, leavesS]
            obtain ⟨h1, h2⟩ := ihl g hwl
            refine ⟨h1, fun x hx => ?_⟩
            simp only [TTree.sOf, hs, Finset.mem_union]
            exact Or.inl (h2 x hx)
        | false =>
            simp only [hb, Bool.false_eq_true, if_neg, speciesListS, leavesS]
            obtain ⟨h1, h2⟩ := ihr (pruneAux l g).2 hwr
            refine ⟨h1, fun x hx => ?_⟩
            simp only [TTree.sOf, hs, Finset.mem_union]
            exact Or.inr (h2 x hx)
      · have hd : l.sOf ∩ r.sOf = ∅ := by
          by_cases hd : l.sOf ∩ r.sOf = ∅
          · exact hd
          · rw [if_neg hd] at hif; exact absurd hif htg
        simp only [pruneAux, if_neg htg]
        obtain ⟨hl1, hl2⟩ := ihl g hwl
        obtain ⟨hr1, hr2⟩ := ihr (pruneAux l g).2 hwr
        have hsplit : speciesListS sep (.node (pruneAux l g).1
            (pruneAux r (pruneAux l g).2).1 s tg) =
            speciesListS sep (pruneAux l g).1 ++
              speciesListS sep (pruneAux r (pruneAux l g).2).1 := by
          simp [speciesListS, leavesS]
        rw [hsplit]
        constructor
        · rw [List.nodup_append]
          refine ⟨hl1, hr1, fun x hx hx2 => ?_⟩
          have hxl : x ∈ l.sOf := hl2 x hx
          have hxr : x ∈ r.sOf := hr2 x hx2
          have : x ∈ l.sOf ∩ r.sOf := Finset.mem_inter.mpr ⟨hxl, hxr⟩
          rw [hd] at this
          exact absurd this (Finset.not_mem_empty x)
        · intro x hx
          simp only [TTree.sOf, hs, Finset.mem_union]
          rcases List.mem_append.mp hx with h | h
          · exact Or.inl (hl2 x h)
          · exact Or.inr (hr2 x h)

lemma restoreS_pruneAux_wellTagged (sep : Label) : ∀ (t : TTree)
    (g : RState), wellTagged sep t = true →
    wellTagged sep (restoreS (pruneAux t g).1) = true ∧
      (restoreS (pruneAux t g).1).sOf = t.sOf := by
  intro t
  induction t with
  | leaf lb s =>
      intro g hw
      exact ⟨hw, rfl⟩
  | node l r s tg ihl ihr =>
      intro g hw
      rw [wellTagged_node] at hw
      obtain ⟨hwl, hwr, hs, hif⟩ := hw
      obtain ⟨hl1, hl2⟩ := ihl g hwl
      obtain ⟨hr1, hr2⟩ := ihr (pruneAux l g).2 hwr
      by_cases htg : tg = 'D'
      · subst htg
        have hd : ¬ l.sOf ∩ r.sOf = ∅ := by
          by_cases hd : l.sOf ∩ r.sOf = ∅
          · rw [if_pos hd] at hif; cases hif
          · exact hd
        simp only [pruneAux, if_pos rfl]
        cases hb : (draw (pruneAux r (pruneAux l g).2).2).1 with
        | true =>
            simp only [hb, if_pos rfl, restoreS]
            constructor
            · rw [wellTagged_node]
              refine ⟨hl1, hr1, ?_, ?_⟩
              · rw [hl2, hr2, hs]
              · rw [hl2, hr2, if_neg hd]
            · simp [TTree.sOf, hs, hl2, hr2]
        | false =>
            simp only [hb, Bool.false_eq_true, if_neg, restoreS]
            constructor
            · rw [wellTagged_node]
              refine ⟨hr1, hl1, ?_, ?_⟩
              · rw [hl2, hr2, hs, Finset.union_comm]
              · rw [hl2, hr2, Finset.inter_comm, if_neg hd]
            · simp [TTree.sOf, hs, hl2, hr2]
      · simp only [pruneAux, if_neg htg, restoreS]
        constructor
        · rw [wellTagged_node]
          refine ⟨hl1, hr1, ?_, ?_⟩
          · rw [hl2, hr2, hs]
          · rw [hl2, hr2]; exact hif
        · simp [TTree.sOf]

lemma count_le_one_of_nodup {l : List Label} (h : l.Nodup) (a : Label) :
    l.count a ≤ 1 := by
  induction l with
  | nil => simp
  | cons b l ih =>
      rw [List.nodup_cons] at h
      rw [List.count_cons]
      by_cases hb : b = a
      · subst hb
        have h0 : l.count b = 0 := List.count_eq_zero_of_not_mem h.1
        simp [h0]
      · have hba : (b == a) = false := by simp [hb]
        simp [hba, ih h.2]

lemma sampleIter_nodup (sep : Label) : ∀ (n : Nat) (t : TTree) (g : RState),
    wellTagged sep t = true →
    ∀ s ∈ (sampleIter n t g).1, (speciesListS sep s).Nodup := by
  intro n
  induction n with
  | zero => intro t g hw s hs; simp [sampleIter] at hs
  | succ n ih =>
      intro t g hw s hs
      simp only [sampleIter, List.mem_cons] at hs
      rcases hs with rfl | hs
      · exact (pruneAux_species sep t g hw).1
      · exact ih _ _ (restoreS_pruneAux_wellTagged sep t g hw).1 s hs

/-- C7: every tree in the list returned by `sample` on a tagged tree is
single-copy: each species identifier labels at most one of its leaves. -/
theorem sample_single_copy (sep : Label) (t0 : GTree) (m : SampMethod)
    (g : RState) (s : STree) (hs : s ∈ (sample m (tag sep t0) g).1)
    (sp : Label) : (speciesListS sep s).count sp ≤ 1 := by
  simp only [sample] at hs
  have hn := sampleIter_nodup sep (nSamples m (tag sep t0).2)
    (tag sep t0).1 seedZero (wellTagged_tag sep t0) s hs
  exact count_le_one_of_nodup hn sp

/-- Witness for C7 on the tagged tree `(A,A);` with linear sampling. -/
theorem sample_single_copy_witness :
    (STree.uni (.leaf ['A'] {['A']}) (.leaf ['A'] {['A']}) {['A']}) ∈
        (sample .linear (tag ['|'] exTreeC5) seedZero).1 ∧
      (speciesListS ['|'] (STree.uni (.leaf ['A'] {['A']})
          (.leaf ['A'] {['A']}) {['A']})).count ['A'] ≤ 1 :=
  ⟨by decide,
    sample_single_copy ['|'] exTreeC5 .linear seedZero _ (by decide) ['A']⟩

lemma eqUpToSwap_refl : ∀ t : TTree, eqUpToSwap t t = true := by
  intro t
  induction t with
  | leaf lb s => simp [eqUpToSwap]
  | node l r s tg ihl ihr => simp [eqUpToSwap, ihl, ihr]

lemma eqUpToSwap_trans : ∀ a b c : TTree, eqUpToSwap a b = true →
    eqUpToSwap b c = true → eqUpToSwap a c = true := by
  intro a
  induction a with
  | leaf la sa =>
      intro b c hab hbc
      cases b with
      | leaf lb sb =>
          cases c with
          | leaf lc sc =>
              simp only [eqUpToSwap, Bool.and_eq_true, decide_eq_true_eq]
                at hab hbc ⊢
              exact ⟨hab.1.trans hbc.1, hab.2.trans hbc.2⟩
          | node _ _ _ _ => simp [eqUpToSwap] at hbc
      | node _ _ _ _ => simp [eqUpToSwap] at hab
  | node l r s tg ihl ihr =>
      intro b c hab hbc
      cases b with
      | leaf _ _ => simp [eqUpToSwap] at hab
      | node bl br bs btg =>
          cases c with
          | leaf _ _ => simp [eqUpToSwap] at hbc
          | node cl cr cs ctg =>
              simp only [eqUpToSwap, Bool.and_eq_true, Bool.or_eq_true,
                decide_eq_true_eq] at hab hbc ⊢
              obtain ⟨⟨hs1, ht1⟩, hd1⟩ := hab
              obtain ⟨⟨hs2, ht2⟩, hd2⟩ := hbc
              refine ⟨⟨hs1.trans hs2, ht1.trans ht2⟩, ?_⟩
              rcases hd1 with ⟨x1, x2⟩ | ⟨x1, x2⟩ <;>
                rcases hd2 with ⟨y1, y2⟩ | ⟨y1, y2⟩
              · exact Or.inl ⟨ihl bl cl x1 y1, ihr br cr x2 y2⟩
              · exact Or.inr ⟨ihl bl cr x1 y1, ihr br cl x2 y2⟩
              · exact Or.inr ⟨ihl br cr x1 y2, ihr bl cl x2 y1⟩
              · exact Or.inl ⟨ihl br cl x1 y2, ihr bl cr x2 y1⟩

lemma restoreS_pruneAux_eqUpToSwap : ∀ (t : TTree) (g : RState),
    eqUpToSwap (restoreS (pruneAux t g).1) t = true := by
  intro t
  induction t with
  | leaf lb s => intro g; simp [pruneAux, restoreS, eqUpToSwap]
  | node l r s tg ihl ihr =>
      intro g
      by_cases htg : tg = 'D'
      · subst htg
        simp only [pruneAux, if_pos rfl]
        cases hb : (draw (pruneAux r (pruneAux l g).2).2).1 with
        | true =>
            simp only [hb, if_pos rfl, restoreS]
            simp [eqUpToSwap, ihl g, ihr (pruneAux l g).2]
        | false =>
            simp only [hb, Bool.false_eq_true, if_neg, restoreS]
            simp [eqUpToSwap, ihl g, ihr (pruneAux l g).2]
      · simp only [pruneAux, if_neg htg, restoreS]
        simp [eqUpToSwap, ihl g, ihr (pruneAux l g).2]

lemma sampleIter_final : ∀ (n : Nat) (t : TTree) (g : RState),
    eqUpToSwap (sampleIter n t g).2.1 t = true := by
  intro n
  induction n with
  | zero => intro t g; exact eqUpToSwap_refl t
  | succ n ih =>
      intro t g
      simp only [sampleIter]
      exact eqUpToSwap_trans _ _ _
        (ih (restoreS (pruneAux t g).1) (pruneAux t g).2)
        (restoreS_pruneAux_eqUpToSwap t g)

lemma eqUpToSwap_leaves_perm : ∀ a b : TTree, eqUpToSwap a b = true →
    (leavesT a).Perm (leavesT b) := by
  intro a
  induction a with
  | leaf la sa =>
      intro b h
      cases b with
      | leaf lb sb =>
          simp only [eqUpToSwap, Bool.and_eq_true, decide_eq_true_eq] at h
          simp [leavesT, h.1]
      | node _ _ _ _ => simp [eqUpToSwap] at h
  | node l r s tg ihl ihr =>
      intro b h
      cases b with
      | leaf _ _ => simp [eqUpToSwap] at h
      | node bl br bs btg =>
          simp only [eqUpToSwap, Bool.and_eq_true, Bool.or_eq_true,
            decide_eq_true_eq] at h
          rcases h.2 with ⟨x1, x2⟩ | ⟨x1, x2⟩
          · exact List.Perm.append (ihl bl x1) (ihr br x2)
          · exact (List.Perm.append (ihl br x1) (ihr bl x2)).trans
              List.perm_append_comm

/-- C9: after `sample` returns, the tagged input tree has been restored:
the final tree equals the input up to swapping the two children at
duplication nodes (the removed child is re-appended after the kept one), so
the node set, the leaf label multiset and the parent-child edges are those
of the tree before the call. -/
theorem sample_restores_input (sep : Label) (t0 : GTree) (m : SampMethod)
    (g : RState) :
    eqUpToSwap (sample m (tag sep t0) g).2.1 (tag sep t0).1 = true ∧
      (leavesT (sample m (tag sep t0) g).2.1).Perm
        (leavesT (tag sep t0).1) := by
  have h := sampleIter_final (nSamples m (tag sep t0).2) (tag sep t0).1
    seedZero
  exact ⟨h, eqUpToSwap_leaves_perm _ _ h⟩

end TagDecomp
